import Mathlib

/-!
Verification of the container lifecycle and naming/identity subsystem of the
agentsandbox repository.  Go strings are modelled as rune lists (`List Char`):
every operation involved (hyphen splitting, ASCII prefix tests, the character
class of `Sanitize`, byte truncation after non-ASCII characters have been
stripped) acts identically on bytes and on runes for these inputs, so the
rune-level model is faithful.  External process boundaries (docker, git, the
filesystem) are modelled as explicit parameters.
-/

namespace AgentSandbox

/-- Go strings, modelled at rune level. -/
abbrev Str := List Char

/-! ### Character classes used by `Sanitize` (internal/container/manager.go) -/

/-- Model of the two `strings.ReplaceAll` calls: spaces (32) and underscores
(95) become hyphens. -/
def replCh (c : Char) : Char :=
  if c.toNat = 32 || c.toNat = 95 then '-' else c

/-- Membership in the character class `[a-zA-Z0-9-]` of the regexp
`[^a-zA-Z0-9\-]` that `Sanitize` uses to delete characters. -/
def isAllowedCh (c : Char) : Bool :=
  (65 ≤ c.toNat && c.toNat ≤ 90) || (97 ≤ c.toNat && c.toNat ≤ 122) ||
    (48 ≤ c.toNat && c.toNat ≤ 57) || c.toNat = 45

/-- Model of `strings.ToLower` on one rune: ASCII upper case letters are
shifted by 32; after the regexp filter only ASCII remains, so the general
Unicode cases of `strings.ToLower` never arise. -/
def goToLowerCh (c : Char) : Char :=
  if 65 ≤ c.toNat && c.toNat ≤ 90 then Char.ofNat (c.toNat + 32) else c

/-- Characters that can occur in a `Sanitize` result: `[a-z0-9-]`. -/
def goodCh (c : Char) : Bool :=
  (97 ≤ c.toNat && c.toNat ≤ 122) || (48 ≤ c.toNat && c.toNat ≤ 57) ||
    c.toNat = 45

/-- Model of `strings.TrimRight(s, "-")`. -/
def trimRightHyphens (l : Str) : Str :=
  (l.reverse.dropWhile (fun c => c == '-')).reverse

/-- Model of `Sanitize` from internal/container/manager.go: replace spaces and
underscores with hyphens, delete everything outside `[a-zA-Z0-9-]`, lower
case, truncate to 50 (bytes = runes here), trim trailing hyphens. -/
def Sanitize (s : Str) : Str :=
  trimRightHyphens ((((s.map replCh).filter isAllowedCh).map goToLowerCh).take 50)

/-! ### Character-level lemmas -/

theorem char_toNat_inj {a b : Char} (h : a.toNat = b.toNat) : a = b :=
  Char.ext (UInt32.ext h)

theorem toNat_ofNat_valid {n : Nat} (h : n < 55296) : (Char.ofNat n).toNat = n := by
  have hv : n.isValidChar := Or.inl h
  simp [Char.ofNat, hv]
  rfl

theorem goodCh_goToLowerCh_of_isAllowedCh {c : Char} (h : isAllowedCh c = true) :
    goodCh (goToLowerCh c) = true := by
  simp only [isAllowedCh, Bool.or_eq_true, Bool.and_eq_true, decide_eq_true_eq] at h
  simp only [goToLowerCh]
  by_cases hu : 65 ≤ c.toNat ∧ c.toNat ≤ 90
  · rw [if_pos (by simp [hu.1, hu.2])]
    have h32 : c.toNat + 32 < 55296 := by omega
    simp only [goodCh, Bool.or_eq_true, Bool.and_eq_true, decide_eq_true_eq,
      toNat_ofNat_valid h32]
    omega
  · rw [if_neg (by simpa using fun h1 h2 => hu ⟨h1, h2⟩)]
    simp only [goodCh, Bool.or_eq_true, Bool.and_eq_true, decide_eq_true_eq]
    omega

theorem replCh_eq_self_of_goodCh {c : Char} (h : goodCh c = true) : replCh c = c := by
  simp only [goodCh, Bool.or_eq_true, Bool.and_eq_true, decide_eq_true_eq] at h
  simp only [replCh]
  rw [if_neg (by simpa using by omega)]

theorem isAllowedCh_of_goodCh {c : Char} (h : goodCh c = true) : isAllowedCh c = true := by
  simp only [goodCh, Bool.or_eq_true, Bool.and_eq_true, decide_eq_true_eq] at h
  simp only [isAllowedCh, Bool.or_eq_true, Bool.and_eq_true, decide_eq_true_eq]
  omega

theorem goToLowerCh_eq_self_of_goodCh {c : Char} (h : goodCh c = true) :
    goToLowerCh c = c := by
  simp only [goodCh, Bool.or_eq_true, Bool.and_eq_true, decide_eq_true_eq] at h
  simp only [goToLowerCh]
  rw [if_neg (by simpa using by omega)]

/-! ### Lemmas about the `Sanitize` pipeline -/

theorem mem_trimRightHyphens {c : Char} {l : Str} (h : c ∈ trimRightHyphens l) :
    c ∈ l := by
  simp only [trimRightHyphens, List.mem_reverse] at h
  exact List.mem_reverse.mp (List.Sublist.mem h (List.dropWhile_sublist _))

theorem length_trimRightHyphens_le (l : Str) :
    (trimRightHyphens l).length ≤ l.length := by
  have h := (@List.dropWhile_sublist Char l.reverse (fun c => c == '-')).length_le
  simp only [List.length_reverse] at h
  simp only [trimRightHyphens, List.length_reverse]
  exact h

theorem goodCh_of_mem_sanitize {c : Char} {s : Str} (h : c ∈ Sanitize s) :
    goodCh c = true := by
  have h1 := mem_trimRightHyphens h
  have h2 := (List.take_sublist _ _).mem h1
  obtain ⟨d, hd, rfl⟩ := List.mem_map.mp h2
  exact goodCh_goToLowerCh_of_isAllowedCh (List.mem_filter.mp hd).2

theorem length_sanitize_le (s : Str) : (Sanitize s).length ≤ 50 := by
  refine (length_trimRightHyphens_le _).trans ?_
  exact List.length_take_le 50 _

theorem trimRightHyphens_idem (l : Str) :
    trimRightHyphens (trimRightHyphens l) = trimRightHyphens l := by
  simp only [trimRightHyphens, List.reverse_reverse]
  congr 1
  induction l.reverse with
  | nil => rfl
  | cons a t ih =>
    by_cases ha : (a == '-') = true
    · simp [List.dropWhile_cons, ha, ih]
    · simp [List.dropWhile_cons, ha]

theorem map_eq_self_of_forall {f : Char → Char} {l : Str}
    (h : ∀ c ∈ l, f c = c) : l.map f = l := by
  induction l with
  | nil => rfl
  | cons a t ih =>
    simp only [List.map_cons, h a (by simp)]
    rw [ih fun c hc => h c (by simp [hc])]

/-- C7: `Sanitize` is idempotent: for every string `s`,
`Sanitize (Sanitize s) = Sanitize s`. -/
theorem sanitize_idempotent (s : Str) : Sanitize (Sanitize s) = Sanitize s := by
  have hgood : ∀ c ∈ Sanitize s, goodCh c = true := fun c hc => goodCh_of_mem_sanitize hc
  have h1 : (Sanitize s).map replCh = Sanitize s :=
    map_eq_self_of_forall (fun c hc => replCh_eq_self_of_goodCh (hgood c hc))
  have h2 : (Sanitize s).filter isAllowedCh = Sanitize s :=
    List.filter_eq_self.mpr (fun c hc => isAllowedCh_of_goodCh (hgood c hc))
  have h3 : (Sanitize s).map goToLowerCh = Sanitize s :=
    map_eq_self_of_forall (fun c hc => goToLowerCh_eq_self_of_goodCh (hgood c hc))
  have h4 : (Sanitize s).take 50 = Sanitize s :=
    List.take_of_length_le (length_sanitize_le s)
  show trimRightHyphens (((((Sanitize s).map replCh).filter
    isAllowedCh).map goToLowerCh).take 50) = Sanitize s
  rw [h1, h2, h3, h4]
  exact trimRightHyphens_idem _

/-- The character shape claimed by the spec for `Sanitize` output: the regular
expression `^[a-z0-9]([a-z0-9-]{0,49})?$` (first character is a lower-case
letter or digit, the rest are `[a-z0-9-]`, total length at most 50). -/
def matchesSpecRegex (l : Str) : Bool :=
  match l with
  | [] => false
  | c :: rest =>
    ((97 ≤ c.toNat && c.toNat ≤ 122) || (48 ≤ c.toNat && c.toNat ≤ 57)) &&
      rest.length ≤ 49 && rest.all goodCh

/-- C8 counterexample: `Sanitize "-a" = "-a"`, which is neither empty nor a
match of `^[a-z0-9]([a-z0-9-]{0,49})?$` — leading hyphens are not trimmed. -/
theorem sanitize_regex_cex :
    ¬(Sanitize ("-a".data) = [] ∨ matchesSpecRegex (Sanitize ("-a".data)) = true) := by
  decide

theorem sanitize_getLast_ne_hyphen (s : Str) {c : Char}
    (h : (Sanitize s).getLast? = some c) : c ≠ '-' := by
  have hh := List.head?_dropWhile_not (fun c => c == '-')
    (((((s.map replCh).filter isAllowedCh).map goToLowerCh).take 50).reverse)
  rw [show Sanitize s = trimRightHyphens ((((s.map replCh).filter
    isAllowedCh).map goToLowerCh).take 50) from rfl] at h
  rw [List.getLast?_eq_head?_reverse] at h
  simp only [trimRightHyphens, List.reverse_reverse] at h
  rw [h] at hh
  simpa using hh

/-- C8 (amended): every `Sanitize` output consists only of characters in
`[a-z0-9-]`, has length at most 50 and never ends in a hyphen; it may however
BEGIN with a hyphen, so the stronger leading-character requirement of the
spec's regular expression does not hold. -/
theorem sanitize_shape (s : Str) :
    (Sanitize s).all goodCh = true ∧ (Sanitize s).length ≤ 50 ∧
      (Sanitize s).getLastD 'a' ≠ '-' := by
  refine ⟨List.all_eq_true.mpr (fun c hc => goodCh_of_mem_sanitize hc),
    length_sanitize_le s, ?_⟩
  rw [List.getLastD_eq_getLast?]
  cases h : (Sanitize s).getLast? with
  | none => decide
  | some c => exact sanitize_getLast_ne_hyphen s h

/-! ### Splitting and joining on a separator (models `strings.Split` and
`strings.Join`) -/

/-- Model of Go `strings.Split(s, sep)` for a one-character separator. -/
def splitSep (sep : Char) : Str → List Str
  | [] => [[]]
  | c :: rest =>
    if c = sep then [] :: splitSep sep rest
    else
      match splitSep sep rest with
      | [] => [[c]]
      | t :: ts => (c :: t) :: ts

/-- Model of Go `strings.Join(parts, sep)` for a one-character separator. -/
def joinSep (sep : Char) : List Str → Str
  | [] => []
  | [x] => x
  | x :: y :: xs => x ++ sep :: joinSep sep (y :: xs)

theorem splitSep_ne_nil (sep : Char) (l : Str) : splitSep sep l ≠ [] := by
  induction l with
  | nil => simp [splitSep]
  | cons c rest ih =>
    simp only [splitSep]
    by_cases hc : c = sep
    · simp [hc]
    · rw [if_neg hc]
      cases h : splitSep sep rest with
      | nil => simp
      | cons t ts => simp

theorem splitSep_append_sep (sep : Char) (x y : Str) :
    splitSep sep (x ++ sep :: y) = splitSep sep x ++ splitSep sep y := by
  induction x with
  | nil => simp [splitSep]
  | cons c x' ih =>
    by_cases hc : c = sep
    · subst hc
      simp [List.cons_append, splitSep, ih]
    · obtain ⟨t, ts, hts⟩ := List.exists_cons_of_ne_nil (splitSep_ne_nil sep x')
      have ih2 : splitSep sep (x'.append (sep :: y)) = splitSep sep x' ++ splitSep sep y := ih
      simp only [List.cons_append, splitSep, if_neg hc]
      rw [ih2, hts]
      simp [List.cons_append]

theorem splitSep_no_sep {sep : Char} {l : Str} (h : sep ∉ l) : splitSep sep l = [l] := by
  induction l with
  | nil => rfl
  | cons c rest ih =>
    have hc : c ≠ sep := by
      rintro rfl
      exact h (List.mem_cons_self _ _)
    have hrest : sep ∉ rest := fun hh => h (List.mem_cons_of_mem c hh)
    simp only [splitSep, if_neg hc, ih hrest]

theorem joinSep_cons_cons (sep : Char) (c : Char) (t : Str) (ts : List Str) :
    joinSep sep ((c :: t) :: ts) = c :: joinSep sep (t :: ts) := by
  cases ts with
  | nil => rfl
  | cons y ys => simp [joinSep]

theorem joinSep_splitSep (sep : Char) (l : Str) : joinSep sep (splitSep sep l) = l := by
  induction l with
  | nil => rfl
  | cons c rest ih =>
    by_cases hc : c = sep
    · obtain ⟨t, ts, hts⟩ := List.exists_cons_of_ne_nil (splitSep_ne_nil sep rest)
      simp only [splitSep, if_pos hc, hts]
      simp only [joinSep, List.nil_append]
      rw [← hts, ih, hc]
    · obtain ⟨t, ts, hts⟩ := List.exists_cons_of_ne_nil (splitSep_ne_nil sep rest)
      simp only [splitSep, if_neg hc, hts, joinSep_cons_cons]
      rw [← hts, ih]

/-! ### Decimal rendering of a natural number (models `fmt.Sprintf("%d", n)`
for the non-negative Unix timestamps used in container names) -/

def isDigitCh (c : Char) : Bool := 48 ≤ c.toNat && c.toNat ≤ 57

def natChars (fuel : Nat) (n : Nat) : Str :=
  match fuel with
  | 0 => []
  | fuel + 1 =>
    if n < 10 then [Char.ofNat (48 + n)]
    else natChars fuel (n / 10) ++ [Char.ofNat (48 + n % 10)]

/-- Decimal representation of `n`, most significant digit first. -/
def natStr (n : Nat) : Str := natChars (n + 1) n

theorem natChars_fuelIrrel (f1 : Nat) : ∀ (n f2 : Nat), n < f1 → n < f2 →
    natChars f1 n = natChars f2 n := by
  induction f1 with
  | zero => intro n f2 h; omega
  | succ f1' ih =>
    intro n f2 h1 h2
    cases f2 with
    | zero => omega
    | succ f2' =>
      simp only [natChars]
      by_cases hn : n < 10
      · simp [hn]
      · rw [if_neg hn, if_neg hn]
        have hdiv : n / 10 < n := Nat.div_lt_self (by omega) (by norm_num)
        rw [ih (n / 10) f2' (by omega) (by omega)]

theorem natStr_unfold (n : Nat) : natStr n =
    if n < 10 then [Char.ofNat (48 + n)]
    else natStr (n / 10) ++ [Char.ofNat (48 + n % 10)] := by
  show natChars (n + 1) n = _
  simp only [natChars]
  by_cases hn : n < 10
  · simp [hn]
  · rw [if_neg hn, if_neg hn]
    have hdiv : n / 10 < n := Nat.div_lt_self (by omega) (by norm_num)
    rw [natChars_fuelIrrel n (n / 10) (n / 10 + 1) (by omega) (by omega)]
    rfl

theorem isDigitCh_ofNat {d : Nat} (h : d < 10) : isDigitCh (Char.ofNat (48 + d)) = true := by
  simp only [isDigitCh, Bool.and_eq_true, decide_eq_true_eq,
    toNat_ofNat_valid (show 48 + d < 55296 by omega)]
  omega

theorem natStr_all_digits (n : Nat) : ∀ c ∈ natStr n, isDigitCh c = true := by
  induction n using Nat.strong_induction_on with
  | _ n ih =>
    intro c hc
    rw [natStr_unfold] at hc
    by_cases hn : n < 10
    · rw [if_pos hn] at hc
      simp only [List.mem_singleton] at hc
      exact hc ▸ isDigitCh_ofNat hn
    · rw [if_neg hn] at hc
      rcases List.mem_append.mp hc with h | h
      · exact ih (n / 10) (Nat.div_lt_self (by omega) (by norm_num)) c h
      · simp only [List.mem_singleton] at h
        exact h ▸ isDigitCh_ofNat (Nat.mod_lt n (by norm_num))

theorem hyphen_not_mem_natStr (n : Nat) : '-' ∉ natStr n := by
  intro h
  have := natStr_all_digits n '-' h
  simp [isDigitCh] at this

theorem natStr_ne_nil (n : Nat) : natStr n ≠ [] := by
  rw [natStr_unfold]
  by_cases hn : n < 10 <;> simp [hn]

theorem le_length_natStr (k : Nat) : ∀ n : Nat, 10 ^ k ≤ n → k + 1 ≤ (natStr n).length := by
  induction k with
  | zero =>
    intro n _
    have := natStr_ne_nil n
    cases h : natStr n with
    | nil => exact absurd h this
    | cons a t => simp
  | succ k' ih =>
    intro n hn
    have h10 : ¬ n < 10 := by
      have : 10 ^ 1 ≤ 10 ^ (k' + 1) := Nat.pow_le_pow_right (by norm_num) (by omega)
      simp only [pow_one] at this
      omega
    rw [natStr_unfold, if_neg h10]
    have hdiv : 10 ^ k' ≤ n / 10 := by
      rw [Nat.le_div_iff_mul_le (by norm_num)]
      calc 10 ^ k' * 10 = 10 ^ (k' + 1) := (pow_succ 10 k').symm
        _ ≤ n := hn
    have := ih (n / 10) hdiv
    simp only [List.length_append, List.length_cons, List.length_nil]
    omega

/-! ### Agents (internal/config: `Agent`, `Command`) -/

/-- The closed set of supported agents. -/
inductive Agent where
  | claude
  | gemini
  | codex
  | qwen
  | cursor
deriving DecidableEq

/-- Model of `Agent.Command` from internal/config: the executable command name.  Note
that cursor's command, `cursor-agent`, contains a hyphen. -/
def Agent.Command : Agent → Str
  | .claude => "claude".data
  | .gemini => "gemini".data
  | .codex => "codex".data
  | .qwen => "qwen".data
  | .cursor => "cursor-agent".data

/-! ### Container naming (internal/container/manager.go and the container
helpers file) -/

/-- Model of `GetCurrentBranch`: the git subprocess is modelled by its outcome — `none`
when `git rev-parse --abbrev-ref HEAD` fails (not a repository), otherwise the
raw branch name it printed. -/
def GetCurrentBranch (gitBranch : Option Str) : Str :=
  match gitBranch with
  | none => "unknown".data
  | some b => Sanitize b

/-- Model of `GenerateContainerName`: format `agent-{agent}-{dir}-{branch}-{timestamp}`.
`dirBase` stands for `filepath.Base(dir)` and `ts` for `time.Now().Unix()`,
both read at the host boundary. -/
def GenerateContainerName (dirBase : Str) (a : Agent) (gitBranch : Option Str)
    (ts : Nat) : Str :=
  "agent-".data ++ Sanitize a.Command ++ "-".data ++ Sanitize dirBase ++
    "-".data ++ GetCurrentBranch gitBranch ++ "-".data ++ natStr ts

/-- The known-agent name list hard-coded in `ExtractProjectName`. -/
def knownAgents : List Str :=
  ["claude".data, "gemini".data, "codex".data, "qwen".data, "cursor".data]

/-- Model of `ExtractProjectName` from the container helpers file: names are split on
hyphens; the result requires an `agent-` prefix, at least 4 parts, an
all-digit final part of length at least 6 and a known agent in part 1, and is
the hyphen-join of the parts strictly between the agent part and the last two
parts. -/
def ExtractProjectName (name : Str) : Str :=
  if ("agent-".data).isPrefixOf name then
    if (splitSep '-' name).length < 4 then "unknown".data
    else
      if ((splitSep '-' name).getLastD []).all isDigitCh = true ∧
          6 ≤ ((splitSep '-' name).getLastD []).length then
        if (splitSep '-' name).getD 1 [] ∈ knownAgents then
          if 0 < (((splitSep '-' name).take
              ((splitSep '-' name).length - 2)).drop 2).length then
            joinSep '-' (((splitSep '-' name).take
              ((splitSep '-' name).length - 2)).drop 2)
          else "unknown".data
        else "unknown".data
      else "unknown".data
  else "unknown".data

/-- Shape of the hyphen-split of a well-formed generated name whose agent,
branch and timestamp tokens are hyphen-free. -/
theorem splitSep_name_shape (cmd proj btok tsStr : Str)
    (hcmd : '-' ∉ cmd) (hbtok : '-' ∉ btok) (hts : '-' ∉ tsStr) :
    splitSep '-' ("agent-".data ++ cmd ++ "-".data ++ proj ++ "-".data ++
        btok ++ "-".data ++ tsStr) =
      "agent".data :: cmd :: (splitSep '-' proj ++ [btok, tsStr]) := by
  have h1 : "agent-".data ++ cmd ++ "-".data ++ proj ++ "-".data ++ btok ++
      "-".data ++ tsStr =
      "agent".data ++ '-' :: (cmd ++ '-' :: (proj ++ '-' :: (btok ++ '-' :: tsStr))) := by
    simp
  rw [h1, splitSep_append_sep, splitSep_append_sep, splitSep_append_sep,
    splitSep_append_sep, splitSep_no_sep (by decide : '-' ∉ "agent".data),
    splitSep_no_sep hcmd, splitSep_no_sep hbtok, splitSep_no_sep hts]
  simp

/-- Core round-trip: extraction recovers the project token from a generated
name provided the agent command token and the branch token are hyphen-free
and the timestamp has at least 6 digits. -/
theorem extract_of_wellformed_name (cmd proj btok : Str) (ts : Nat)
    (hcmd : '-' ∉ cmd) (hknown : cmd ∈ knownAgents) (hbtok : '-' ∉ btok)
    (hts : 100000 ≤ ts) :
    ExtractProjectName ("agent-".data ++ cmd ++ "-".data ++ proj ++ "-".data ++
        btok ++ "-".data ++ natStr ts) = proj := by
  have hsplit := splitSep_name_shape cmd proj btok (natStr ts) hcmd hbtok
    (hyphen_not_mem_natStr ts)
  have hpre : ("agent-".data).isPrefixOf ("agent-".data ++ cmd ++ "-".data ++
      proj ++ "-".data ++ btok ++ "-".data ++ natStr ts) = true := by
    rw [List.isPrefixOf_iff_prefix]
    exact ⟨cmd ++ "-".data ++ proj ++ "-".data ++ btok ++ "-".data ++ natStr ts, by simp⟩
  have hP := splitSep_ne_nil '-' proj
  have hPlen : 1 ≤ (splitSep '-' proj).length := by
    cases h : splitSep '-' proj with
    | nil => exact absurd h hP
    | cons a t => simp
  rw [ExtractProjectName, if_pos hpre, hsplit]
  have hlen : ("agent".data :: cmd :: (splitSep '-' proj ++ [btok, natStr ts])).length =
      (splitSep '-' proj).length + 4 := by
    simp
  rw [hlen]
  rw [if_neg (by omega)]
  have hlast : ("agent".data :: cmd :: (splitSep '-' proj ++
      [btok, natStr ts])).getLastD [] = natStr ts := by
    have : "agent".data :: cmd :: (splitSep '-' proj ++ [btok, natStr ts]) =
        ("agent".data :: cmd :: (splitSep '-' proj ++ [btok])) ++ [natStr ts] := by
      simp
    rw [this, List.getLastD_concat]
  rw [hlast]
  have hdig : (natStr ts).all isDigitCh = true :=
    List.all_eq_true.mpr (natStr_all_digits ts)
  have hlen6 : 6 ≤ (natStr ts).length := le_length_natStr 5 ts (by norm_num; omega)
  rw [if_pos ⟨hdig, hlen6⟩]
  have hget : ("agent".data :: cmd :: (splitSep '-' proj ++
      [btok, natStr ts])).getD 1 [] = cmd := by
    simp [List.getD]
  rw [hget, if_pos hknown]
  have htake : ("agent".data :: cmd :: (splitSep '-' proj ++
      [btok, natStr ts])).take ((splitSep '-' proj).length + 4 - 2) =
      "agent".data :: cmd :: splitSep '-' proj := by
    have h42 : (splitSep '-' proj).length + 4 - 2 = ((splitSep '-' proj).length + 1) + 1 := by
      omega
    rw [h42]
    simp only [List.take_succ_cons]
    congr 1
    congr 1
    exact List.take_left (splitSep '-' proj) [btok, natStr ts]
  rw [htake]
  simp only [List.drop_succ_cons, List.drop_zero, List.drop]
  rw [if_pos (by omega)]
  exact joinSep_splitSep '-' proj

/-- C1 counterexample: for agent cursor the command token `cursor-agent`
contains a hyphen, so the name splits one part early and
`ExtractProjectName` returns `agent-myapp` instead of `myapp`. -/
theorem extract_compose_cursor_cex :
    ExtractProjectName (GenerateContainerName ("myapp".data) Agent.cursor
      (some ("main".data)) 1000000) ≠ Sanitize ("myapp".data) := by
  decide

/-- C1 (amended): for every directory basename and every agent other than
cursor (whose command token contains an embedded hyphen), provided the branch
token carries no hyphen and the timestamp has at least six digits (true of
every Unix timestamp since 1970-01-02), `ExtractProjectName` applied to
`GenerateContainerName dir agent` returns exactly `Sanitize (basename dir)`. -/
theorem extract_compose_roundtrip (dirBase : Str) (a : Agent)
    (gitBranch : Option Str) (ts : Nat) (ha : a ≠ Agent.cursor)
    (hbr : '-' ∉ GetCurrentBranch gitBranch) (hts : 100000 ≤ ts) :
    ExtractProjectName (GenerateContainerName dirBase a gitBranch ts) =
      Sanitize dirBase := by
  cases a with
  | cursor => exact absurd rfl ha
  | claude =>
    show ExtractProjectName ("agent-".data ++ Sanitize ("claude".data) ++ "-".data ++
      Sanitize dirBase ++ "-".data ++ GetCurrentBranch gitBranch ++ "-".data ++
      natStr ts) = Sanitize dirBase
    rw [show Sanitize ("claude".data) = "claude".data by decide]
    exact extract_of_wellformed_name _ _ _ ts (by decide) (by decide) hbr hts
  | gemini =>
    show ExtractProjectName ("agent-".data ++ Sanitize ("gemini".data) ++ "-".data ++
      Sanitize dirBase ++ "-".data ++ GetCurrentBranch gitBranch ++ "-".data ++
      natStr ts) = Sanitize dirBase
    rw [show Sanitize ("gemini".data) = "gemini".data by decide]
    exact extract_of_wellformed_name _ _ _ ts (by decide) (by decide) hbr hts
  | codex =>
    show ExtractProjectName ("agent-".data ++ Sanitize ("codex".data) ++ "-".data ++
      Sanitize dirBase ++ "-".data ++ GetCurrentBranch gitBranch ++ "-".data ++
      natStr ts) = Sanitize dirBase
    rw [show Sanitize ("codex".data) = "codex".data by decide]
    exact extract_of_wellformed_name _ _ _ ts (by decide) (by decide) hbr hts
  | qwen =>
    show ExtractProjectName ("agent-".data ++ Sanitize ("qwen".data) ++ "-".data ++
      Sanitize dirBase ++ "-".data ++ GetCurrentBranch gitBranch ++ "-".data ++
      natStr ts) = Sanitize dirBase
    rw [show Sanitize ("qwen".data) = "qwen".data by decide]
    exact extract_of_wellformed_name _ _ _ ts (by decide) (by decide) hbr hts

/-- C1 witness: a concrete round trip through the amended theorem. -/
theorem extract_compose_roundtrip_witness :
    ExtractProjectName (GenerateContainerName ("My App".data) Agent.claude
      (some ("main".data)) 1700000000) = Sanitize ("My App".data) :=
  extract_compose_roundtrip _ _ _ _ (by decide) (by decide) (by norm_num)

/-! ### Lexicographic string order (models Go `<` / `>` on strings; byte order
and code-point order agree on UTF-8) -/

def strLe : Str → Str → Bool
  | [], _ => true
  | _ :: _, [] => false
  | a :: as, b :: bs =>
    if a.toNat < b.toNat then true
    else if b.toNat < a.toNat then false
    else strLe as bs

/-- The relation form of `strLe`, for use with `List.insertionSort`. -/
def strLeRel (a b : Str) : Prop := strLe a b = true

instance : DecidableRel strLeRel := fun a b => by
  unfold strLeRel
  infer_instance

theorem strLe_total (a : Str) : ∀ b : Str, strLe a b = true ∨ strLe b a = true := by
  induction a with
  | nil => intro b; left; rfl
  | cons x xs ih =>
    intro b
    cases b with
    | nil => right; rfl
    | cons y ys =>
      simp only [strLe]
      by_cases h1 : x.toNat < y.toNat
      · left; simp [h1]
      · by_cases h2 : y.toNat < x.toNat
        · right; simp [h2, h1]
        · simp only [if_neg h1, if_neg h2]
          exact ih ys

theorem strLe_trans (a : Str) : ∀ b c : Str, strLe a b = true → strLe b c = true →
    strLe a c = true := by
  induction a with
  | nil => intro b c _ _; rfl
  | cons x xs ih =>
    intro b c hab hbc
    cases b with
    | nil => simp [strLe] at hab
    | cons y ys =>
      cases c with
      | nil => simp [strLe] at hbc
      | cons z zs =>
        simp only [strLe] at hab hbc ⊢
        by_cases h1 : x.toNat < y.toNat
        · by_cases h2 : y.toNat < z.toNat
          · rw [if_pos (by omega)]
          · rw [if_neg h2] at hbc
            by_cases h3 : z.toNat < y.toNat
            · simp [h3] at hbc
            · rw [if_pos (by omega)]
        · rw [if_neg h1] at hab
          by_cases h2 : y.toNat < x.toNat
          · simp [h2] at hab
          · rw [if_neg h2] at hab
            by_cases h3 : y.toNat < z.toNat
            · rw [if_pos (by omega)]
            · rw [if_neg h3] at hbc
              by_cases h4 : z.toNat < y.toNat
              · simp [h4] at hbc
              · rw [if_neg h4] at hbc
                rw [if_neg (by omega), if_neg (by omega)]
                exact ih ys zs hab hbc

theorem strLe_antisymm (a : Str) : ∀ b : Str, strLe a b = true → strLe b a = true →
    a = b := by
  induction a with
  | nil =>
    intro b _ hba
    cases b with
    | nil => rfl
    | cons y ys => simp [strLe] at hba
  | cons x xs ih =>
    intro b hab hba
    cases b with
    | nil => simp [strLe] at hab
    | cons y ys =>
      simp only [strLe] at hab hba
      by_cases h1 : x.toNat < y.toNat
      · rw [if_neg (by omega), if_pos h1] at hba
        exact absurd hba (by simp)
      · rw [if_neg h1] at hab
        by_cases h2 : y.toNat < x.toNat
        · simp [h2] at hab
        · rw [if_neg h2, if_neg (by omega)] at hba
          rw [if_neg h2] at hab
          rw [char_toNat_inj (by omega : x.toNat = y.toNat), ih ys hab hba]

instance : IsTotal Str strLeRel := ⟨strLe_total⟩

instance : IsTrans Str strLeRel := ⟨fun a b c => strLe_trans a b c⟩

instance : IsAntisymm Str strLeRel := ⟨fun a b => strLe_antisymm a b⟩

/-! ### Image tag generation (internal/language/detector.go) -/

/-- Model of `GenerateImageTag`: languages (Go string values) are copied, sorted with
the Go string order and joined with hyphens; the empty set maps to `base`.
`List.insertionSort` stands for `sort.Slice` with the comparator
`sorted[i] < sorted[j]`: both produce the `strLe`-sorted permutation, which is
unique because equal-compare languages are equal strings. -/
def GenerateImageTag (languages : List Str) : Str :=
  if languages.length = 0 then "base".data
  else joinSep '-' (languages.insertionSort strLeRel)

/-- C5: `GenerateImageTag` is invariant under permutation of its input, and
the empty language list yields exactly `base`. -/
theorem image_tag_perm_invariant :
    (∀ l l' : List Str, l.Perm l' → GenerateImageTag l = GenerateImageTag l') ∧
      GenerateImageTag [] = "base".data := by
  constructor
  · intro l l' hp
    have hs : l.insertionSort strLeRel = l'.insertionSort strLeRel :=
      List.eq_of_perm_of_sorted
        ((List.perm_insertionSort _ l).trans
          (hp.trans (List.perm_insertionSort _ l').symm))
        (List.sorted_insertionSort _ l) (List.sorted_insertionSort _ l')
    unfold GenerateImageTag
    rw [hp.length_eq, hs]
  · rfl

/-- C5 witness: a concrete permutation pair. -/
theorem image_tag_perm_invariant_witness :
    GenerateImageTag ["go".data, "python".data] =
      GenerateImageTag ["python".data, "go".data] :=
  image_tag_perm_invariant.1 _ _ (List.Perm.swap ("python".data) ("go".data) [])

/-! ### Finding an existing container (container helpers file,
`FindExistingContainer`) -/

/-- The search prefix `agent-{agent}-{project}-{branch}-`. -/
def findPattern (dirBase : Str) (a : Agent) (gitBranch : Option Str) : Str :=
  "agent-".data ++ Sanitize a.Command ++ "-".data ++ Sanitize dirBase ++
    "-".data ++ GetCurrentBranch gitBranch ++ "-".data

/-- The trailing hyphen-separated segment of a container name
(`parts[len(parts)-1]` in the sort comparator). -/
def lastSeg (n : Str) : Str := (splitSep '-' n).getLastD []

/-- The (non-strict) descending order on trailing segments used to model
`sort.Slice` with comparator `partsI[last] > partsJ[last]`: a sort with either
relation yields a descending-sorted permutation, whose head is a maximum. -/
def tsGeRel (a b : Str) : Prop := strLe (lastSeg b) (lastSeg a) = true

instance : DecidableRel tsGeRel := fun a b => by
  unfold tsGeRel
  infer_instance

instance : IsTotal Str tsGeRel :=
  ⟨fun a b => Or.symm (strLe_total (lastSeg a) (lastSeg b))⟩

instance : IsTrans Str tsGeRel :=
  ⟨fun _ _ _ h1 h2 => strLe_trans _ _ _ h2 h1⟩

theorem strLe_refl (a : Str) : strLe a a = true := by
  rcases strLe_total a a with h | h <;> exact h

/-- Model of `FindExistingContainer`: the docker listing is modelled by its outcome
(`.error` when `docker ps -a` fails, otherwise the trimmed name lines).
Containers matching `agent-{agent}-{project}-{branch}-` are collected; no
match yields `.ok ""` (empty name, nil error); otherwise the matches are
sorted descending by trailing segment and the head is returned. -/
def FindExistingContainer (dirBase : Str) (a : Agent) (gitBranch : Option Str)
    (listing : Except Str (List Str)) : Except Str Str :=
  match listing with
  | .error e => .error e
  | .ok names =>
    if (names.filter (fun n =>
        (findPattern dirBase a gitBranch).isPrefixOf n)).length = 0 then .ok []
    else .ok (((names.filter (fun n =>
        (findPattern dirBase a gitBranch).isPrefixOf n)).insertionSort
          tsGeRel).headD [])

/-- C9: whenever some listed name matches the search prefix, the returned name
is a listed match whose trailing segment is greatest (in the Go string order
used by the comparator) among all matches. -/
theorem find_existing_newest (dirBase : Str) (a : Agent) (gitBranch : Option Str)
    (names : List Str) (r : Str)
    (hr : FindExistingContainer dirBase a gitBranch (.ok names) = .ok r)
    (hex : ∃ n ∈ names, (findPattern dirBase a gitBranch).isPrefixOf n = true) :
    r ∈ names ∧ (findPattern dirBase a gitBranch).isPrefixOf r = true ∧
      ∀ n ∈ names, (findPattern dirBase a gitBranch).isPrefixOf n = true →
        strLe (lastSeg n) (lastSeg r) = true := by
  obtain ⟨w, hw, hpw⟩ := hex
  have hwm : w ∈ names.filter (fun n =>
      (findPattern dirBase a gitBranch).isPrefixOf n) :=
    List.mem_filter.mpr ⟨hw, hpw⟩
  have hne : names.filter (fun n =>
      (findPattern dirBase a gitBranch).isPrefixOf n) ≠ [] :=
    List.ne_nil_of_mem hwm
  have hlen : ¬ (names.filter (fun n =>
      (findPattern dirBase a gitBranch).isPrefixOf n)).length = 0 := by
    simpa [List.length_eq_zero] using hne
  rw [FindExistingContainer] at hr
  rw [if_neg hlen] at hr
  have hperm := List.perm_insertionSort tsGeRel (names.filter (fun n =>
    (findPattern dirBase a gitBranch).isPrefixOf n))
  have hsorted := List.sorted_insertionSort tsGeRel (names.filter (fun n =>
    (findPattern dirBase a gitBranch).isPrefixOf n))
  have hSne : (names.filter (fun n =>
      (findPattern dirBase a gitBranch).isPrefixOf n)).insertionSort tsGeRel ≠ [] := by
    intro hnil
    have h0 := hperm.symm
    rw [hnil] at h0
    exact hne h0.eq_nil
  obtain ⟨s0, St, hS⟩ := List.exists_cons_of_ne_nil hSne
  have hr0 : r = s0 := by
    rw [hS] at hr
    simpa using (Except.ok.inj hr).symm
  subst hr0
  have hrmem : r ∈ names.filter (fun n =>
      (findPattern dirBase a gitBranch).isPrefixOf n) :=
    hperm.mem_iff.mp (hS ▸ List.mem_cons_self _ _)
  have hrn := List.mem_filter.mp hrmem
  refine ⟨hrn.1, hrn.2, ?_⟩
  intro n hn hpn
  have hnm : n ∈ names.filter (fun m =>
      (findPattern dirBase a gitBranch).isPrefixOf m) :=
    List.mem_filter.mpr ⟨hn, hpn⟩
  have hnS : n ∈ (names.filter (fun m =>
      (findPattern dirBase a gitBranch).isPrefixOf m)).insertionSort tsGeRel :=
    hperm.mem_iff.mpr hnm
  rw [hS] at hnS hsorted
  rcases List.mem_cons.mp hnS with hcase | hcase
  · rw [hcase]
    exact strLe_refl _
  · exact List.rel_of_sorted_cons hsorted n hcase

/-- C9 witness: of two matches the one with trailing segment 2000 is
selected, and it dominates both matches. -/
theorem find_existing_newest_witness :
    ("agent-claude-myapp-main-2000".data ∈
        ["agent-claude-myapp-main-1000".data, "agent-claude-myapp-main-2000".data,
          "other".data] ∧
      (findPattern ("myapp".data) Agent.claude
        (some ("main".data))).isPrefixOf ("agent-claude-myapp-main-2000".data) = true ∧
      ∀ n ∈ ["agent-claude-myapp-main-1000".data, "agent-claude-myapp-main-2000".data,
          "other".data],
        (findPattern ("myapp".data) Agent.claude
          (some ("main".data))).isPrefixOf n = true →
          strLe (lastSeg n) (lastSeg ("agent-claude-myapp-main-2000".data)) = true) :=
  find_existing_newest ("myapp".data) Agent.claude (some ("main".data)) _ _
    (by rfl) ⟨"agent-claude-myapp-main-1000".data, by decide, by decide⟩

/-! ### The start flow (internal/cli/root.go, `runStart`) -/

/-- Observable steps of `runStart` and `CreateContainer`, in execution
order. -/
inductive Action where
  | checkDocker
  | autoRemoveOld
  | findExisting
  | resumeContainer (name : Str)
  | buildImage
  | createContainer (name : Str)
deriving DecidableEq

/-- The sequence of container-affecting steps `runStart` performs (root.go
106-128, with `CreateContainer` expanded into its image-build step followed by
`docker run`).  Out-of-scope glue (settings load, worktree chdir, flag
parsing) is omitted; a listing error only prints a warning, leaving
`existing` empty, so the flow proceeds to create. -/
def runStartTrace (dirBase : Str) (a : Agent) (gitBranch : Option Str)
    (listing : Except Str (List Str)) (continueFlag : Bool) (lastContainer : Str)
    (ts : Nat) : List Action :=
  Action.checkDocker :: Action.autoRemoveOld ::
    (if continueFlag then [Action.resumeContainer lastContainer]
     else
       Action.findExisting ::
         (match FindExistingContainer dirBase a gitBranch listing with
          | .error _ =>
            [Action.buildImage,
              Action.createContainer (GenerateContainerName dirBase a gitBranch ts)]
          | .ok existing =>
            if existing = [] then
              [Action.buildImage,
                Action.createContainer (GenerateContainerName dirBase a gitBranch ts)]
            else [Action.resumeContainer existing]))

/-- C3: in the start flow, `findExisting` always precedes any creation — a
container is only ever created in the trace
`[checkDocker, autoRemoveOld, findExisting, buildImage, createContainer _]` —
and whenever `findExisting` returns a non-empty match, the flow resumes that
container and performs neither an image build nor a container creation. -/
theorem reuse_over_create (dirBase : Str) (a : Agent) (gitBranch : Option Str)
    (listing : Except Str (List Str)) (lastC : Str) (ts : Nat) :
    (∀ name, FindExistingContainer dirBase a gitBranch listing = .ok name →
      name ≠ [] →
      runStartTrace dirBase a gitBranch listing false lastC ts =
        [Action.checkDocker, Action.autoRemoveOld, Action.findExisting,
          Action.resumeContainer name] ∧
      Action.buildImage ∉ runStartTrace dirBase a gitBranch listing false lastC ts ∧
      ∀ n, Action.createContainer n ∉
        runStartTrace dirBase a gitBranch listing false lastC ts) ∧
    (∀ n, Action.createContainer n ∈
        runStartTrace dirBase a gitBranch listing false lastC ts →
      runStartTrace dirBase a gitBranch listing false lastC ts =
        [Action.checkDocker, Action.autoRemoveOld, Action.findExisting,
          Action.buildImage, Action.createContainer n]) := by
  cases hF : FindExistingContainer dirBase a gitBranch listing with
  | error e =>
    have htr : runStartTrace dirBase a gitBranch listing false lastC ts =
        [Action.checkDocker, Action.autoRemoveOld, Action.findExisting,
          Action.buildImage,
          Action.createContainer (GenerateContainerName dirBase a gitBranch ts)] := by
      simp [runStartTrace, hF]
    constructor
    · intro name hname
      exact absurd hname (by simp)
    · intro n hn
      rw [htr] at hn
      simp only [List.mem_cons, List.not_mem_nil, or_false,
        Action.createContainer.injEq] at hn
      rcases hn with h | h | h | h | h
      · exact absurd h (by simp)
      · exact absurd h (by simp)
      · exact absurd h (by simp)
      · exact absurd h (by simp)
      · rw [htr, h]
  | ok existing =>
    by_cases hex : existing = []
    · subst hex
      have htr : runStartTrace dirBase a gitBranch listing false lastC ts =
          [Action.checkDocker, Action.autoRemoveOld, Action.findExisting,
            Action.buildImage,
            Action.createContainer (GenerateContainerName dirBase a gitBranch ts)] := by
        simp [runStartTrace, hF]
      constructor
      · intro name hname hne
        exact absurd (Except.ok.inj hname).symm hne
      · intro n hn
        rw [htr] at hn
        simp only [List.mem_cons, List.not_mem_nil, or_false,
          Action.createContainer.injEq] at hn
        rcases hn with h | h | h | h | h
        · exact absurd h (by simp)
        · exact absurd h (by simp)
        · exact absurd h (by simp)
        · exact absurd h (by simp)
        · rw [htr, h]
    · have htr : runStartTrace dirBase a gitBranch listing false lastC ts =
          [Action.checkDocker, Action.autoRemoveOld, Action.findExisting,
            Action.resumeContainer existing] := by
        simp [runStartTrace, hF, if_neg hex]
      constructor
      · intro name hname _
        obtain rfl := Except.ok.inj hname
        refine ⟨htr, ?_, ?_⟩
        · rw [htr]
          simp
        · intro n
          rw [htr]
          simp
      · intro n hn
        rw [htr] at hn
        simp at hn

/-- C3 witness: the spec's scenario — directory `myapp`, branch `main`, agent
claude, an existing container `agent-claude-myapp-main-1000` — resumes it and
performs no build or creation. -/
theorem reuse_over_create_witness :
    runStartTrace ("myapp".data) Agent.claude (some ("main".data))
        (.ok ["agent-claude-myapp-main-1000".data]) false [] 1700000000 =
      [Action.checkDocker, Action.autoRemoveOld, Action.findExisting,
        Action.resumeContainer ("agent-claude-myapp-main-1000".data)] ∧
    Action.buildImage ∉ runStartTrace ("myapp".data) Agent.claude
      (some ("main".data)) (.ok ["agent-claude-myapp-main-1000".data]) false [] 1700000000 :=
  ⟨((reuse_over_create ("myapp".data) Agent.claude (some ("main".data))
      (.ok ["agent-claude-myapp-main-1000".data]) [] 1700000000).1
      ("agent-claude-myapp-main-1000".data) (by rfl) (by decide)).1,
    ((reuse_over_create ("myapp".data) Agent.claude (some ("main".data))
      (.ok ["agent-claude-myapp-main-1000".data]) [] 1700000000).1
      ("agent-claude-myapp-main-1000".data) (by rfl) (by decide)).2.1⟩

/-- C10: when no listed name matches the search prefix,
`FindExistingContainer` returns the empty string with a nil error (`.ok ""`),
and the start flow proceeds to build and create a new container instead of
aborting. -/
theorem find_existing_no_match (dirBase : Str) (a : Agent) (gitBranch : Option Str)
    (names : List Str) (lastC : Str) (ts : Nat)
    (h : ∀ n ∈ names, (findPattern dirBase a gitBranch).isPrefixOf n = false) :
    FindExistingContainer dirBase a gitBranch (.ok names) = .ok [] ∧
      runStartTrace dirBase a gitBranch (.ok names) false lastC ts =
        [Action.checkDocker, Action.autoRemoveOld, Action.findExisting,
          Action.buildImage,
          Action.createContainer (GenerateContainerName dirBase a gitBranch ts)] := by
  have hm : names.filter (fun n =>
      (findPattern dirBase a gitBranch).isPrefixOf n) = [] := by
    rw [List.filter_eq_nil_iff]
    intro n hn
    simp [h n hn]
  have hfind : FindExistingContainer dirBase a gitBranch (.ok names) = .ok [] := by
    rw [FindExistingContainer, hm]
    rfl
  refine ⟨hfind, ?_⟩
  simp [runStartTrace, hfind]

/-- C10 witness: with only a non-matching container listed, the flow creates
a fresh container. -/
theorem find_existing_no_match_witness :
    FindExistingContainer ("myapp".data) Agent.claude (some ("main".data))
        (.ok ["other".data]) = .ok [] ∧
      runStartTrace ("myapp".data) Agent.claude (some ("main".data))
          (.ok ["other".data]) false [] 1700000000 =
        [Action.checkDocker, Action.autoRemoveOld, Action.findExisting,
          Action.buildImage,
          Action.createContainer (GenerateContainerName ("myapp".data)
            Agent.claude (some ("main".data)) 1700000000)] :=
  find_existing_no_match ("myapp".data) Agent.claude (some ("main".data))
    ["other".data] [] 1700000000 (by decide)

/-! ### Age-based auto eviction (container helpers file,
`AutoRemoveOldContainers`) -/

/-- Model of `AutoRemoveOldContainers`: time instants are modelled in whole seconds
(`Int`); `containers` pairs each listed name with its parsed `.Created`
instant, and the result is the list of names the function removes.  With
`minutes ≤ 0` it returns immediately; otherwise a container survives exactly
when `created.After(cutoff)` with `cutoff = now - minutes` minutes. -/
def AutoRemoveOldContainers (minutes : Int) (now : Int)
    (containers : List (Str × Int)) : List Str :=
  if minutes ≤ 0 then []
  else
    (containers.filter (fun c =>
      ("agent-".data).isPrefixOf c.1 && !(decide (now - minutes * 60 < c.2)))).map
      Prod.fst

/-- C6: `maxAgeMinutes ≤ 0` removes nothing; for positive thresholds exactly
the `agent-`-prefixed containers of age at least the threshold are removed —
in particular a container one second over the threshold is removed and one a
second under it is kept. -/
theorem auto_remove_spec (m now : Int) (cs : List (Str × Int)) :
    (m ≤ 0 → AutoRemoveOldContainers m now cs = []) ∧
    (0 < m → AutoRemoveOldContainers m now cs =
      (cs.filter (fun c => ("agent-".data).isPrefixOf c.1 &&
        decide (m * 60 ≤ now - c.2))).map Prod.fst) ∧
    (0 < m → AutoRemoveOldContainers m now
      [("agent-x".data, now - m * 60 - 1)] = ["agent-x".data]) ∧
    (0 < m → AutoRemoveOldContainers m now
      [("agent-x".data, now - m * 60 + 1)] = []) := by
  refine ⟨fun h => by simp [AutoRemoveOldContainers, h], fun h => ?_, fun h => ?_, fun h => ?_⟩
  · rw [AutoRemoveOldContainers, if_neg (by omega)]
    congr 1
    apply List.filter_congr
    intro c _
    congr 1
    by_cases h2 : m * 60 ≤ now - c.2
    · have h3 : ¬ (now - m * 60 < c.2) := by omega
      simp [h2, h3]
    · have h3 : now - m * 60 < c.2 := by omega
      simp [h2, h3]
  · rw [AutoRemoveOldContainers, if_neg (by omega)]
    have hc : (("agent-".data).isPrefixOf ("agent-x".data) &&
        !(decide (now - m * 60 < now - m * 60 - 1))) = true := by
      simp only [Bool.and_eq_true, Bool.not_eq_true']
      exact ⟨by decide, by simp only [decide_eq_false_iff_not]; omega⟩
    simp [List.filter_cons, hc]
  · rw [AutoRemoveOldContainers, if_neg (by omega)]
    have hc : (("agent-".data).isPrefixOf ("agent-x".data) &&
        !(decide (now - m * 60 < now - m * 60 + 1))) = false := by
      have h1 : now - m * 60 < now - m * 60 + 1 := by omega
      simp [h1]
    simp [List.filter_cons, hc]

/-- C6 witness: threshold 1 minute at time 100000. -/
theorem auto_remove_spec_witness :
    AutoRemoveOldContainers (-5) 9999 [("agent-a".data, 0)] = [] ∧
    AutoRemoveOldContainers 1 100000 [("agent-x".data, 100000 - 1 * 60 - 1)] =
      ["agent-x".data] ∧
    AutoRemoveOldContainers 1 100000 [("agent-x".data, 100000 - 1 * 60 + 1)] = [] :=
  ⟨(auto_remove_spec (-5) 9999 [("agent-a".data, 0)]).1 (by norm_num),
    (auto_remove_spec 1 100000 []).2.2.1 (by norm_num),
    (auto_remove_spec 1 100000 []).2.2.2 (by norm_num)⟩

/-! ### Port mapping validation (internal/container/runtime.go,
`validatePortMapping`).  `strconv.Atoi` and `net.ParseIP` are Go standard
library collaborators and are modelled below. -/

/-- Value of a digit string, most significant first. -/
def digitsVal (l : Str) : Nat := l.foldl (fun acc d => acc * 10 + (d.toNat - 48)) 0

/-- Model of `strconv.Atoi`: optional sign followed by at least one digit.
Go errors out on 64-bit overflow where this model returns the value; both
reject any such spec because the value is far above 65535, so accept/reject
behaviour is unchanged. -/
def goAtoi (s : Str) : Option Int :=
  match s with
  | [] => none
  | c :: rest =>
    if c.toNat = 45 then
      if rest ≠ [] ∧ rest.all isDigitCh = true then some (-(digitsVal rest : Int))
      else none
    else if c.toNat = 43 then
      if rest ≠ [] ∧ rest.all isDigitCh = true then some ((digitsVal rest : Int))
      else none
    else if (c :: rest).all isDigitCh = true then some ((digitsVal (c :: rest) : Int))
    else none

/-- The inner `validatePort` closure: `Atoi` must succeed with a value in
`[1, 65535]`. -/
def validatePortOK (s : Str) : Bool :=
  match goAtoi s with
  | none => false
  | some p => decide (1 ≤ p) && decide (p ≤ 65535)

def isHexCh (c : Char) : Bool :=
  isDigitCh c || (97 ≤ c.toNat && c.toNat ≤ 102) || (65 ≤ c.toNat && c.toNat ≤ 70)

/-- One dotted-quad field: digits, value at most 255, no extra leading zero
(Go rejects leading zeros in IPv4 literals). -/
def v4FieldOK (g : Str) : Bool :=
  !g.isEmpty && g.all isDigitCh && decide (digitsVal g ≤ 255) &&
    (decide (g.length = 1) || decide (g.headD '0' ≠ '0'))

/-- Model of the IPv4 branch of `net.ParseIP`: exactly four valid fields. -/
def goParseIPv4 (s : Str) : Bool :=
  decide ((splitSep '.' s).length = 4) && (splitSep '.' s).all v4FieldOK

/-- One 16-bit IPv6 group: one to four hex digits. -/
def hexGroupOK (g : Str) : Bool :=
  !g.isEmpty && decide (g.length ≤ 4) && g.all isHexCh

/-- Count the 16-bit groups of a colon-split tail, allowing an embedded IPv4
(worth two groups) in the final position only. -/
def groupsOK : List Str → Option Nat
  | [] => some 0
  | [g] => if hexGroupOK g then some 1 else if goParseIPv4 g then some 2 else none
  | g :: rest => if hexGroupOK g then (groupsOK rest).map (· + 1) else none

/-- Split at the first `::`, if any. -/
def findDoubleColon : Str → Option (Str × Str)
  | [] => none
  | [_] => none
  | c1 :: c2 :: rest =>
    if c1 = ':' ∧ c2 = ':' then some ([], rest)
    else (findDoubleColon (c2 :: rest)).map (fun p => (c1 :: p.1, p.2))

/-- Model of the IPv6 branch of `net.ParseIP`: at most one `::` compression
(expanding to at least one zero group), one-to-four-hex-digit groups, optional
trailing embedded IPv4, eight groups in total. -/
def goParseIPv6 (s : Str) : Bool :=
  match findDoubleColon s with
  | some (l, r) =>
    (if l.isEmpty then ([] : List Str) else splitSep ':' l).all hexGroupOK &&
      (match groupsOK (if r.isEmpty then ([] : List Str) else splitSep ':' r) with
       | some n =>
         decide ((if l.isEmpty then ([] : List Str) else splitSep ':' l).length + n ≤ 7)
       | none => false)
  | none =>
    match groupsOK (splitSep ':' s) with
    | some n => decide (n = 8)
    | none => false

/-- Model of `net.ParseIP`: the first `.` or `:` selects the IPv4 or the IPv6
parser; a string with neither is not an IP. -/
def goParseIP (s : Str) : Bool :=
  match s.find? (fun c => c == '.' || c == ':') with
  | some c => if c = '.' then goParseIPv4 s else goParseIPv6 s
  | none => false

/-- Split at the first occurrence of `c`, if any (models `strings.Index`). -/
def breakAt (c : Char) : Str → Option (Str × Str)
  | [] => none
  | x :: rest =>
    if x = c then some ([], rest)
    else (breakAt c rest).map (fun p => (x :: p.1, p.2))

/-- Model of `validatePortMapping` from internal/container/runtime.go: empty specs are
rejected; `[IPv6]:HOST:CONTAINER` handles the bracketed form; otherwise the
spec splits on `:` into 1 (`PORT`), 2 (`HOST:CONTAINER`) or 3
(`IP:HOST:CONTAINER`) parts, anything else being rejected (the `colonCount`
test only selects the error message). -/
def validatePortMapping (spec : Str) : Bool :=
  match spec with
  | [] => false
  | c :: rest =>
    if c = '[' then
      match breakAt ']' rest with
      | none => false
      | some (ipStr, remainder) =>
        if goParseIP ipStr then
          match remainder with
          | [] => false
          | r0 :: rem2 =>
            if r0 = ':' then
              if (splitSep ':' rem2).length = 2 then
                validatePortOK ((splitSep ':' rem2).getD 0 []) &&
                  validatePortOK ((splitSep ':' rem2).getD 1 [])
              else false
            else false
        else false
    else
      if (splitSep ':' (c :: rest)).length = 1 then
        validatePortOK ((splitSep ':' (c :: rest)).getD 0 [])
      else if (splitSep ':' (c :: rest)).length = 2 then
        validatePortOK ((splitSep ':' (c :: rest)).getD 0 []) &&
          validatePortOK ((splitSep ':' (c :: rest)).getD 1 [])
      else if (splitSep ':' (c :: rest)).length = 3 then
        goParseIP ((splitSep ':' (c :: rest)).getD 0 []) &&
          validatePortOK ((splitSep ':' (c :: rest)).getD 1 []) &&
          validatePortOK ((splitSep ':' (c :: rest)).getD 2 [])
      else false

theorem digitsVal_natStr (n : Nat) : digitsVal (natStr n) = n := by
  induction n using Nat.strong_induction_on with
  | _ n ih =>
    rw [digitsVal, natStr_unfold]
    by_cases hn : n < 10
    · rw [if_pos hn]
      simp [toNat_ofNat_valid (show 48 + n < 55296 by omega)]
    · rw [if_neg hn]
      rw [List.foldl_append]
      have hrec := ih (n / 10) (Nat.div_lt_self (by omega) (by norm_num))
      rw [digitsVal] at hrec
      rw [hrec]
      simp only [List.foldl_cons, List.foldl_nil]
      rw [toNat_ofNat_valid (show 48 + n % 10 < 55296 by
        have := Nat.mod_lt n (show 0 < 10 by norm_num); omega)]
      omega

theorem goAtoi_natStr (n : Nat) : goAtoi (natStr n) = some (n : Int) := by
  obtain ⟨c, rest, hcr⟩ := List.exists_cons_of_ne_nil (natStr_ne_nil n)
  have hdig : ∀ d ∈ natStr n, isDigitCh d = true := natStr_all_digits n
  have hc : isDigitCh c = true := hdig c (by rw [hcr]; simp)
  have hc45 : ¬ c.toNat = 45 := by
    simp only [isDigitCh, Bool.and_eq_true, decide_eq_true_eq] at hc
    omega
  have hc43 : ¬ c.toNat = 43 := by
    simp only [isDigitCh, Bool.and_eq_true, decide_eq_true_eq] at hc
    omega
  have hall : (c :: rest).all isDigitCh = true := by
    rw [← hcr]
    exact List.all_eq_true.mpr hdig
  rw [hcr, goAtoi, if_neg hc45, if_neg hc43, if_pos hall, ← hcr, digitsVal_natStr]

theorem natStr_head_digit (n : Nat) {c : Char} {rest : Str}
    (h : natStr n = c :: rest) : isDigitCh c = true :=
  natStr_all_digits n c (by rw [h]; simp)

/-! Structural lemmas for the acceptance characterization of
`validatePortMapping`. -/

theorem goAtoi_chars {p : Str} {v : Int} (h : goAtoi p = some v) :
    p ≠ [] ∧ ∀ ch ∈ p,
      ch.toNat = 43 ∨ ch.toNat = 45 ∨ (48 ≤ ch.toNat ∧ ch.toNat ≤ 57) := by
  cases p with
  | nil => exact absurd h (by simp [goAtoi])
  | cons c rest =>
    refine ⟨by simp, ?_⟩
    rw [goAtoi] at h
    by_cases h45 : c.toNat = 45
    · rw [if_pos h45] at h
      by_cases hr : rest ≠ [] ∧ rest.all isDigitCh = true
      · intro ch hch
        rcases List.mem_cons.mp hch with rfl | hch2
        · exact Or.inr (Or.inl h45)
        · have := List.all_eq_true.mp hr.2 ch hch2
          simp only [isDigitCh, Bool.and_eq_true, decide_eq_true_eq] at this
          exact Or.inr (Or.inr this)
      · rw [if_neg hr] at h
        exact absurd h (by simp)
    · rw [if_neg h45] at h
      by_cases h43 : c.toNat = 43
      · rw [if_pos h43] at h
        by_cases hr : rest ≠ [] ∧ rest.all isDigitCh = true
        · intro ch hch
          rcases List.mem_cons.mp hch with rfl | hch2
          · exact Or.inl h43
          · have := List.all_eq_true.mp hr.2 ch hch2
            simp only [isDigitCh, Bool.and_eq_true, decide_eq_true_eq] at this
            exact Or.inr (Or.inr this)
        · rw [if_neg hr] at h
          exact absurd h (by simp)
      · rw [if_neg h43] at h
        by_cases hall : (c :: rest).all isDigitCh = true
        · intro ch hch
          have := List.all_eq_true.mp hall ch hch
          simp only [isDigitCh, Bool.and_eq_true, decide_eq_true_eq] at this
          exact Or.inr (Or.inr this)
        · rw [if_neg hall] at h
          exact absurd h (by simp)

theorem validatePortOK_chars {p : Str} (h : validatePortOK p = true) :
    p ≠ [] ∧ ∀ ch ∈ p,
      ch.toNat = 43 ∨ ch.toNat = 45 ∨ (48 ≤ ch.toNat ∧ ch.toNat ≤ 57) := by
  rw [validatePortOK] at h
  cases ha : goAtoi p with
  | none => rw [ha] at h; exact absurd h (by simp)
  | some v => exact goAtoi_chars ha

theorem validatePortOK_no_colon {p : Str} (h : validatePortOK p = true) : ':' ∉ p := by
  intro hmem
  rcases (validatePortOK_chars h).2 ':' hmem with h1 | h1 | h1 <;> simp at h1

theorem validatePortOK_head {p : Str} (h : validatePortOK p = true) :
    ∃ c0 rest0, p = c0 :: rest0 ∧ ¬ c0 = '[' := by
  obtain ⟨hne, hch⟩ := validatePortOK_chars h
  obtain ⟨c0, rest0, hp⟩ := List.exists_cons_of_ne_nil hne
  refine ⟨c0, rest0, hp, ?_⟩
  intro hh
  rcases hch c0 (by rw [hp]; simp) with h1 | h1 | h1 <;> rw [hh] at h1 <;>
    simp at h1

theorem splitSep_parts_no_sep (sep : Char) (s : Str) :
    ∀ part ∈ splitSep sep s, sep ∉ part := by
  induction s with
  | nil =>
    intro part hp
    simp only [splitSep, List.mem_singleton] at hp
    simp [hp]
  | cons c rest ih =>
    intro part hp
    by_cases hc : c = sep
    · rw [splitSep, if_pos hc] at hp
      rcases List.mem_cons.mp hp with rfl | hp2
      · simp
      · exact ih part hp2
    · obtain ⟨t, ts, hts⟩ := List.exists_cons_of_ne_nil (splitSep_ne_nil sep rest)
      rw [splitSep, if_neg hc, hts] at hp
      rcases List.mem_cons.mp hp with rfl | hp2
      · intro hmem
        rcases List.mem_cons.mp hmem with rfl | hmem2
        · exact hc rfl
        · exact ih t (by rw [hts]; simp) hmem2
      · exact ih part (by rw [hts]; simp [hp2])

theorem sep_mem_of_splitSep_len {sep : Char} {s : Str}
    (h : 2 ≤ (splitSep sep s).length) : sep ∈ s := by
  by_contra hmem
  rw [splitSep_no_sep hmem] at h
  simp at h

theorem mem_joinSep {sep ch : Char} :
    ∀ ll : List Str, ch ∈ joinSep sep ll → ch = sep ∨ ∃ l ∈ ll, ch ∈ l := by
  intro ll
  induction ll with
  | nil => intro h; cases h
  | cons x xs ih =>
    intro h
    cases xs with
    | nil =>
      simp only [joinSep] at h
      exact Or.inr ⟨x, by simp, h⟩
    | cons y ys =>
      simp only [joinSep] at h
      rcases List.mem_append.mp h with h1 | h1
      · exact Or.inr ⟨x, by simp, h1⟩
      · rcases List.mem_cons.mp h1 with rfl | h2
        · exact Or.inl rfl
        · rcases ih h2 with h3 | ⟨l, hl, hmem⟩
          · exact Or.inl h3
          · exact Or.inr ⟨l, by simp [hl], hmem⟩

theorem breakAt_eq_some {ch : Char} :
    ∀ {s x y : Str}, breakAt ch s = some (x, y) → s = x ++ ch :: y ∧ ch ∉ x := by
  intro s
  induction s with
  | nil => intro x y h; exact absurd h (by simp [breakAt])
  | cons c rest ih =>
    intro x y h
    rw [breakAt] at h
    by_cases hc : c = ch
    · rw [if_pos hc] at h
      obtain ⟨rfl, rfl⟩ := Prod.mk.injEq _ _ _ _ ▸ Option.some.inj h
      exact ⟨by simp [hc], by simp⟩
    · rw [if_neg hc] at h
      cases hb : breakAt ch rest with
      | none => rw [hb] at h; exact absurd h (by simp)
      | some p =>
        rw [hb] at h
        obtain ⟨hx, hy⟩ := Prod.mk.injEq _ _ _ _ ▸ Option.some.inj h
        obtain ⟨hrest, hnot⟩ := ih hb
        subst hx
        subst hy
        refine ⟨by rw [hrest]; simp, ?_⟩
        intro hmem
        rcases List.mem_cons.mp hmem with h1 | h1
        · exact hc h1.symm
        · exact hnot h1

theorem breakAt_append {ch : Char} {x y : Str} (h : ch ∉ x) :
    breakAt ch (x ++ ch :: y) = some (x, y) := by
  induction x with
  | nil => simp [breakAt]
  | cons c rest ih =>
    have hc : ¬ c = ch := by
      intro hh
      exact h (hh ▸ List.mem_cons_self _ _)
    have hrest : ch ∉ rest := fun hm => h (List.mem_cons_of_mem _ hm)
    have ih2 : breakAt ch (rest.append (ch :: y)) = some (rest, y) := ih hrest
    simp only [List.cons_append, breakAt, if_neg hc, ih2]
    rfl

theorem joinSep_pair (sep : Char) (h c : Str) : joinSep sep [h, c] = h ++ sep :: c := rfl

theorem joinSep_triple (sep : Char) (a b c : Str) :
    joinSep sep [a, b, c] = a ++ sep :: (b ++ sep :: c) := rfl

theorem goParseIPv4_fields {ip : Str} (h : goParseIPv4 ip = true) :
    (splitSep '.' ip).length = 4 ∧ ∀ g ∈ splitSep '.' ip, v4FieldOK g = true := by
  rw [goParseIPv4, Bool.and_eq_true, decide_eq_true_eq] at h
  exact ⟨h.1, List.all_eq_true.mp h.2⟩

theorem goParseIPv4_chars {ip : Str} (h : goParseIPv4 ip = true) :
    ∀ ch ∈ ip, isDigitCh ch = true ∨ ch = '.' := by
  intro ch hch
  rw [← joinSep_splitSep '.' ip] at hch
  rcases mem_joinSep _ hch with h1 | ⟨g, hg, hmem⟩
  · exact Or.inr h1
  · have hf := (goParseIPv4_fields h).2 g hg
    rw [v4FieldOK] at hf
    simp only [Bool.and_eq_true] at hf
    exact Or.inl (List.all_eq_true.mp hf.1.1.2 ch hmem)

theorem goParseIPv4_ne_nil {ip : Str} (h : goParseIPv4 ip = true) : ip ≠ [] := by
  intro hnil
  rw [hnil] at h
  exact absurd h (by decide)

theorem goParseIPv4_has_dot {ip : Str} (h : goParseIPv4 ip = true) : '.' ∈ ip := by
  refine @sep_mem_of_splitSep_len '.' ip ?_
  rw [(goParseIPv4_fields h).1]
  omega

theorem findDoubleColon_eq_some :
    ∀ {s l r : Str}, findDoubleColon s = some (l, r) → s = l ++ ':' :: ':' :: r := by
  intro s
  induction s with
  | nil => intro l r h; exact absurd h (by simp [findDoubleColon])
  | cons c1 tail ih =>
    intro l r h
    cases tail with
    | nil => exact absurd h (by simp [findDoubleColon])
    | cons c2 rest =>
      rw [findDoubleColon] at h
      by_cases hcc : c1 = ':' ∧ c2 = ':'
      · rw [if_pos hcc] at h
        obtain ⟨rfl, rfl⟩ := Prod.mk.injEq _ _ _ _ ▸ Option.some.inj h
        simp [hcc.1, hcc.2]
      · rw [if_neg hcc] at h
        cases hfd : findDoubleColon (c2 :: rest) with
        | none => rw [hfd] at h; exact absurd h (by simp)
        | some p =>
          rw [hfd] at h
          obtain ⟨hl, hr⟩ := Prod.mk.injEq _ _ _ _ ▸ Option.some.inj h
          subst hl
          subst hr
          have := ih hfd
          rw [List.cons_append]
          rw [← this]

theorem groupsOK_chars :
    ∀ (gs : List Str) (n : Nat), groupsOK gs = some n →
      ∀ g ∈ gs, ∀ ch ∈ g, isHexCh ch = true ∨ isDigitCh ch = true ∨ ch = '.' := by
  intro gs
  induction gs with
  | nil => intro n _ g hg; cases hg
  | cons g0 rest ih =>
    intro n h g hg ch hch
    cases rest with
    | nil =>
      rcases List.mem_singleton.mp hg with rfl
      rw [groupsOK] at h
      by_cases hhex : hexGroupOK g = true
      · rw [hexGroupOK, Bool.and_eq_true, Bool.and_eq_true] at hhex
        exact Or.inl (List.all_eq_true.mp hhex.2 ch hch)
      · rw [if_neg hhex] at h
        by_cases hv4 : goParseIPv4 g = true
        · rcases goParseIPv4_chars hv4 ch hch with h1 | h1
          · exact Or.inr (Or.inl h1)
          · exact Or.inr (Or.inr h1)
        · rw [if_neg hv4] at h
          exact absurd h (by simp)
    | cons r1 rest2 =>
      have h2 : (if hexGroupOK g0 = true then (groupsOK (r1 :: rest2)).map (· + 1)
          else none) = some n := h
      by_cases hhex : hexGroupOK g0 = true
      · rw [if_pos hhex] at h2
        rcases List.mem_cons.mp hg with rfl | hg2
        · rw [hexGroupOK, Bool.and_eq_true, Bool.and_eq_true] at hhex
          exact Or.inl (List.all_eq_true.mp hhex.2 ch hch)
        · cases hgo : groupsOK (r1 :: rest2) with
          | none => rw [hgo] at h2; exact absurd h2 (by simp)
          | some m => exact ih m hgo g hg2 ch hch
      · rw [if_neg hhex] at h2
        exact absurd h2 (by simp)

theorem goParseIPv6_chars {s : Str} (h : goParseIPv6 s = true) :
    ∀ ch ∈ s, isHexCh ch = true ∨ ch = ':' ∨ ch = '.' := by
  intro ch hch
  rw [goParseIPv6] at h
  cases hfd : findDoubleColon s with
  | some p =>
    obtain ⟨l, r⟩ := p
    rw [hfd] at h
    simp only [Bool.and_eq_true] at h
    have hs := findDoubleColon_eq_some hfd
    rw [hs] at hch
    rcases List.mem_append.mp hch with hl | hr
    · by_cases hle : l.isEmpty = true
      · rw [List.isEmpty_iff.mp hle] at hl
        cases hl
      · have hall := h.1
        rw [if_neg hle] at hall
        rw [← joinSep_splitSep ':' l] at hl
        rcases mem_joinSep _ hl with h1 | ⟨g, hg, hmem⟩
        · exact Or.inr (Or.inl h1)
        · have hx := List.all_eq_true.mp hall g hg
          rw [hexGroupOK, Bool.and_eq_true, Bool.and_eq_true] at hx
          exact Or.inl (List.all_eq_true.mp hx.2 ch hmem)
    · rcases List.mem_cons.mp hr with rfl | hr2
      · exact Or.inr (Or.inl rfl)
      · rcases List.mem_cons.mp hr2 with rfl | hr3
        · exact Or.inr (Or.inl rfl)
        · by_cases hre : r.isEmpty = true
          · rw [List.isEmpty_iff.mp hre] at hr3
            cases hr3
          · have hmatch := h.2
            rw [if_neg hre] at hmatch
            cases hgo : groupsOK (splitSep ':' r) with
            | none => rw [hgo] at hmatch; exact absurd hmatch (by simp)
            | some n =>
              rw [← joinSep_splitSep ':' r] at hr3
              rcases mem_joinSep _ hr3 with h1 | ⟨g, hg, hmem⟩
              · exact Or.inr (Or.inl h1)
              · rcases groupsOK_chars _ n hgo g hg ch hmem with h1 | h1 | h1
                · exact Or.inl h1
                · exact Or.inl (by simp [isHexCh, h1])
                · exact Or.inr (Or.inr h1)
  | none =>
    rw [hfd] at h
    cases hgo : groupsOK (splitSep ':' s) with
    | none => rw [hgo] at h; exact absurd h (by simp)
    | some n =>
      rw [← joinSep_splitSep ':' s] at hch
      rcases mem_joinSep _ hch with h1 | ⟨g, hg, hmem⟩
      · exact Or.inr (Or.inl h1)
      · rcases groupsOK_chars _ n hgo g hg ch hmem with h1 | h1 | h1
        · exact Or.inl h1
        · exact Or.inl (by simp [isHexCh, h1])
        · exact Or.inr (Or.inr h1)

theorem goParseIP_chars {s : Str} (h : goParseIP s = true) :
    ∀ ch ∈ s, isHexCh ch = true ∨ ch = ':' ∨ ch = '.' := by
  rw [goParseIP] at h
  cases hf : s.find? (fun c => c == '.' || c == ':') with
  | none => rw [hf] at h; exact absurd h (by simp)
  | some c =>
    rw [hf] at h
    have h2 : (if c = '.' then goParseIPv4 s else goParseIPv6 s) = true := h
    by_cases hc : c = '.'
    · rw [if_pos hc] at h2
      intro ch hch
      rcases goParseIPv4_chars h2 ch hch with h1 | h1
      · exact Or.inl (by simp [isHexCh, h1])
      · exact Or.inr (Or.inr h1)
    · rw [if_neg hc] at h2
      exact goParseIPv6_chars h2

theorem goParseIP_no_bracket {s : Str} (h : goParseIP s = true) :
    ']' ∉ s ∧ '[' ∉ s := by
  constructor <;> intro hmem <;> rcases goParseIP_chars h _ hmem with h1 | h1 | h1 <;>
    simp [isHexCh, isDigitCh] at h1

/-! Acceptance lemmas: each grammatical form is accepted. -/

theorem accept_single {s : Str} (hp : validatePortOK s = true) :
    validatePortMapping s = true := by
  obtain ⟨c0, rest0, hs, hc0⟩ := validatePortOK_head hp
  have hnc : ':' ∉ s := validatePortOK_no_colon hp
  have hsplit : splitSep ':' s = [s] := splitSep_no_sep hnc
  rw [hs] at hsplit
  rw [hs, validatePortMapping, if_neg hc0, hsplit]
  simp only [List.length_singleton]
  rw [if_pos trivial]
  show validatePortOK (c0 :: rest0) = true
  rw [← hs]
  exact hp

theorem accept_pair {h c : Str} (hh : validatePortOK h = true)
    (hc : validatePortOK c = true) :
    validatePortMapping (h ++ ':' :: c) = true := by
  obtain ⟨h0, h', hhd, hh0⟩ := validatePortOK_head hh
  have hsplit : splitSep ':' (h ++ ':' :: c) = [h, c] := by
    rw [splitSep_append_sep, splitSep_no_sep (validatePortOK_no_colon hh),
      splitSep_no_sep (validatePortOK_no_colon hc)]
    rfl
  have hshape : h ++ ':' :: c = h0 :: (h' ++ ':' :: c) := by rw [hhd]; simp
  rw [hshape] at hsplit
  rw [hshape, validatePortMapping, if_neg hh0, hsplit]
  rw [if_neg (by simp), if_pos (by simp)]
  show (validatePortOK h && validatePortOK c) = true
  rw [hh, hc]
  rfl

theorem accept_triple {ip h c : Str} (hip : goParseIPv4 ip = true)
    (hh : validatePortOK h = true) (hc : validatePortOK c = true) :
    validatePortMapping (ip ++ ':' :: (h ++ ':' :: c)) = true := by
  have hnc : ':' ∉ ip := by
    intro hmem
    rcases goParseIPv4_chars hip ':' hmem with h1 | h1 <;> simp [isDigitCh] at h1
  obtain ⟨i0, ip', hid⟩ := List.exists_cons_of_ne_nil (goParseIPv4_ne_nil hip)
  have hi0 : ¬ i0 = '[' := by
    intro hh0
    have hmem : '[' ∈ ip := by
      rw [hid, ← hh0]
      exact List.mem_cons_self _ _
    rcases goParseIPv4_chars hip '[' hmem with h1 | h1 <;> simp [isDigitCh] at h1
  have hgoIP : goParseIP ip = true := by
    cases hf : ip.find? (fun ch => ch == '.' || ch == ':') with
    | none =>
      have := List.find?_eq_none.mp hf '.' (goParseIPv4_has_dot hip)
      simp at this
    | some ch =>
      have hp := List.find?_some hf
      have hmem := List.mem_of_find?_eq_some hf
      have hch : ch = '.' := by
        simp only [Bool.or_eq_true, beq_iff_eq] at hp
        rcases hp with h1 | h1
        · exact h1
        · exact absurd (h1 ▸ hmem) hnc
      rw [goParseIP, hf]
      show (if ch = '.' then goParseIPv4 ip else goParseIPv6 ip) = true
      rw [if_pos hch]
      exact hip
  have hsplit : splitSep ':' (ip ++ ':' :: (h ++ ':' :: c)) = [ip, h, c] := by
    rw [splitSep_append_sep, splitSep_append_sep, splitSep_no_sep hnc,
      splitSep_no_sep (validatePortOK_no_colon hh),
      splitSep_no_sep (validatePortOK_no_colon hc)]
    rfl
  have hshape : ip ++ ':' :: (h ++ ':' :: c) = i0 :: (ip' ++ ':' :: (h ++ ':' :: c)) := by
    rw [hid]
    simp
  rw [hshape] at hsplit
  rw [hshape, validatePortMapping, if_neg hi0, hsplit]
  rw [if_neg (by simp), if_neg (by simp), if_pos (by simp)]
  show ((goParseIP ip && validatePortOK h) && validatePortOK c) = true
  rw [hgoIP, hh, hc]
  rfl

theorem accept_bracket {ip h c : Str} (hip : goParseIP ip = true)
    (hh : validatePortOK h = true) (hc : validatePortOK c = true) :
    validatePortMapping ('[' :: (ip ++ ']' :: ':' :: (h ++ ':' :: c))) = true := by
  have hnb := (goParseIP_no_bracket hip).1
  have hsplit : splitSep ':' (h ++ ':' :: c) = [h, c] := by
    rw [splitSep_append_sep, splitSep_no_sep (validatePortOK_no_colon hh),
      splitSep_no_sep (validatePortOK_no_colon hc)]
    rfl
  rw [validatePortMapping, if_pos rfl, breakAt_append hnb]
  show (if goParseIP ip = true then
      (if (':' : Char) = ':' then
        (if (splitSep ':' (h ++ ':' :: c)).length = 2 then
          validatePortOK ((splitSep ':' (h ++ ':' :: c)).getD 0 []) &&
            validatePortOK ((splitSep ':' (h ++ ':' :: c)).getD 1 [])
        else false)
      else false)
    else false) = true
  rw [if_pos hip, if_pos rfl, hsplit, if_pos (by simp)]
  show (validatePortOK h && validatePortOK c) = true
  rw [hh, hc]
  rfl

/-- The port-spec grammar exactly as the claim states it: a spec is a bare
`PORT`, a `HOST:CONTAINER` pair, an `IP:HOST:CONTAINER` triple with a dotted
IPv4 address, or a bracketed-IPv6 `[IPv6]:HOST:CONTAINER`, every port
component parsing (via `strconv.Atoi`) as an integer in `[1, 65535]`. -/
def ClaimedPortSpecForm (s : Str) : Prop :=
  validatePortOK s = true ∨
  (∃ h c, s = h ++ ':' :: c ∧ validatePortOK h = true ∧ validatePortOK c = true) ∨
  (∃ ip h c, s = ip ++ ':' :: (h ++ ':' :: c) ∧ goParseIPv4 ip = true ∧
    validatePortOK h = true ∧ validatePortOK c = true) ∨
  (∃ ip h c, s = '[' :: (ip ++ ']' :: ':' :: (h ++ ':' :: c)) ∧
    goParseIPv6 ip = true ∧ validatePortOK h = true ∧ validatePortOK c = true)

/-- The amended grammar: identical to the claim's except that the bracketed
form admits any address `net.ParseIP` accepts — IPv4 as well as IPv6 — since
the code's bracket branch checks only `net.ParseIP`. -/
def PortSpecForm (s : Str) : Prop :=
  validatePortOK s = true ∨
  (∃ h c, s = h ++ ':' :: c ∧ validatePortOK h = true ∧ validatePortOK c = true) ∨
  (∃ ip h c, s = ip ++ ':' :: (h ++ ':' :: c) ∧ goParseIPv4 ip = true ∧
    validatePortOK h = true ∧ validatePortOK c = true) ∨
  (∃ ip h c, s = '[' :: (ip ++ ']' :: ':' :: (h ++ ':' :: c)) ∧
    goParseIP ip = true ∧ validatePortOK h = true ∧ validatePortOK c = true)

/-- Every accepted spec has one of the four (amended) forms. -/
theorem form_of_accept {s : Str} (hacc : validatePortMapping s = true) :
    PortSpecForm s := by
  cases s with
  | nil => exact absurd hacc (by decide)
  | cons c0 rest =>
    rw [validatePortMapping] at hacc
    by_cases hc0 : c0 = '['
    · rw [if_pos hc0] at hacc
      cases hbr : breakAt ']' rest with
      | none => rw [hbr] at hacc; exact absurd hacc (by simp)
      | some p =>
        obtain ⟨ip, rem⟩ := p
        rw [hbr] at hacc
        cases rem with
        | nil =>
          have hacc2 : (if goParseIP ip = true then false else false) = true := hacc
          by_cases hip : goParseIP ip = true <;> simp [hip] at hacc2
        | cons r0 rem2 =>
          have hacc2 : (if goParseIP ip = true then
              (if r0 = ':' then
                (if (splitSep ':' rem2).length = 2 then
                  validatePortOK ((splitSep ':' rem2).getD 0 []) &&
                    validatePortOK ((splitSep ':' rem2).getD 1 [])
                else false)
              else false)
            else false) = true := hacc
          by_cases hip : goParseIP ip = true
          · rw [if_pos hip] at hacc2
            by_cases hr0 : r0 = ':'
            · rw [if_pos hr0] at hacc2
              by_cases hlen : (splitSep ':' rem2).length = 2
              · rw [if_pos hlen] at hacc2
                obtain ⟨h2, c2, hhc⟩ := List.length_eq_two.mp hlen
                have hrem2 : rem2 = h2 ++ ':' :: c2 := by
                  rw [← joinSep_splitSep ':' rem2, hhc]
                  rfl
                rw [hhc] at hacc2
                simp only [List.getD_cons_zero, List.getD_cons_succ] at hacc2
                rw [Bool.and_eq_true] at hacc2
                obtain ⟨hrest, _⟩ := breakAt_eq_some hbr
                refine Or.inr (Or.inr (Or.inr ⟨ip, h2, c2, ?_, hip, ?_, ?_⟩))
                · rw [hrest, hrem2, hc0, hr0]
                · exact hacc2.1
                · exact hacc2.2
              · rw [if_neg hlen] at hacc2
                exact absurd hacc2 (by simp)
            · rw [if_neg hr0] at hacc2
              exact absurd hacc2 (by simp)
          · rw [if_neg hip] at hacc2
            exact absurd hacc2 (by simp)
    · rw [if_neg hc0] at hacc
      by_cases h1 : (splitSep ':' (c0 :: rest)).length = 1
      · rw [if_pos h1] at hacc
        obtain ⟨x, hx⟩ := List.length_eq_one.mp h1
        have hs : c0 :: rest = x := by
          rw [← joinSep_splitSep ':' (c0 :: rest), hx]
          rfl
        rw [hx] at hacc
        simp only [List.getD_cons_zero, List.getD_cons_succ] at hacc
        exact Or.inl (by rw [hs]; exact hacc)
      · rw [if_neg h1] at hacc
        by_cases h2 : (splitSep ':' (c0 :: rest)).length = 2
        · rw [if_pos h2] at hacc
          obtain ⟨hh, cc, hhc⟩ := List.length_eq_two.mp h2
          have hs : c0 :: rest = hh ++ ':' :: cc := by
            rw [← joinSep_splitSep ':' (c0 :: rest), hhc]
            rfl
          rw [hhc] at hacc
          simp only [List.getD_cons_zero, List.getD_cons_succ] at hacc
          rw [Bool.and_eq_true] at hacc
          exact Or.inr (Or.inl ⟨hh, cc, hs, hacc.1, hacc.2⟩)
        · rw [if_neg h2] at hacc
          by_cases h3 : (splitSep ':' (c0 :: rest)).length = 3
          · rw [if_pos h3] at hacc
            obtain ⟨ip, hh, cc, hhc⟩ := List.length_eq_three.mp h3
            have hs : c0 :: rest = ip ++ ':' :: (hh ++ ':' :: cc) := by
              rw [← joinSep_splitSep ':' (c0 :: rest), hhc]
              rfl
            rw [hhc] at hacc
            simp only [List.getD_cons_zero, List.getD_cons_succ] at hacc
            rw [Bool.and_eq_true, Bool.and_eq_true] at hacc
            have hnc : ':' ∉ ip :=
              splitSep_parts_no_sep ':' (c0 :: rest) ip (by rw [hhc]; simp)
            have hv4 : goParseIPv4 ip = true := by
              have hip := hacc.1.1
              rw [goParseIP] at hip
              cases hf : ip.find? (fun ch => ch == '.' || ch == ':') with
              | none => rw [hf] at hip; exact absurd hip (by simp)
              | some ch =>
                rw [hf] at hip
                have hp := List.find?_some hf
                have hmem := List.mem_of_find?_eq_some hf
                have hch : ch = '.' := by
                  simp only [Bool.or_eq_true, beq_iff_eq] at hp
                  rcases hp with hd | hd
                  · exact hd
                  · exact absurd (hd ▸ hmem) hnc
                have hip2 : (if ch = '.' then goParseIPv4 ip else goParseIPv6 ip) = true := hip
                rw [if_pos hch] at hip2
                exact hip2
            exact Or.inr (Or.inr (Or.inl ⟨ip, hh, cc, hs, hv4, hacc.1.2, hacc.2⟩))
          · rw [if_neg h3] at hacc
            exact absurd hacc (by simp)

/-- C4 counterexample: the bracketed IPv4 spec `[1.2.3.4]:8080:80` is
accepted by `validatePortMapping` — the bracket branch only requires
`net.ParseIP` success, which IPv4 addresses also satisfy — yet it has none of
the claim's forms (`PORT`, `HOST:CONTAINER`, dotted-IPv4 `IP:HOST:CONTAINER`,
bracketed-IPv6), so the claimed acceptance characterization is false. -/
theorem bracketed_ipv4_cex :
    validatePortMapping ("[1.2.3.4]:8080:80".data) = true ∧
      ¬ ClaimedPortSpecForm ("[1.2.3.4]:8080:80".data) := by
  constructor
  · decide
  · intro hform
    rcases hform with h1 | ⟨h, c, hs, hh, hc⟩ | ⟨ip, h, c, hs, hip, hh, hc⟩ |
      ⟨ip, h, c, hs, hip, hh, hc⟩
    · exact absurd h1 (by decide)
    · obtain ⟨h0, h', hhd, hh0⟩ := validatePortOK_head hh
      rw [hhd, List.cons_append] at hs
      have hhead := congrArg List.head? hs
      rw [show (("[1.2.3.4]:8080:80".data).head? = some '[') from rfl] at hhead
      exact hh0 (Option.some.inj hhead).symm
    · obtain ⟨i0, ip', hid⟩ := List.exists_cons_of_ne_nil (goParseIPv4_ne_nil hip)
      rw [hid, List.cons_append] at hs
      have hhead := congrArg List.head? hs
      rw [show (("[1.2.3.4]:8080:80".data).head? = some '[') from rfl] at hhead
      have hi0 : i0 = '[' := (Option.some.inj hhead).symm
      have hmem : '[' ∈ ip := by
        rw [hid, ← hi0]
        exact List.mem_cons_self _ _
      rcases goParseIPv4_chars hip '[' hmem with h1 | h1 <;> simp [isDigitCh] at h1
    · have hnb : ']' ∉ ip := by
        intro hmem
        rcases goParseIPv6_chars hip ']' hmem with h1 | h1 | h1 <;>
          simp [isHexCh, isDigitCh] at h1
      have hs2 : "1.2.3.4]:8080:80".data = ip ++ ']' :: ':' :: (h ++ ':' :: c) := by
        have ht := congrArg List.tail hs
        exact ht
      have hbr1 : breakAt ']' ("1.2.3.4]:8080:80".data) =
          some ("1.2.3.4".data, ":8080:80".data) := by decide
      rw [hs2, breakAt_append hnb] at hbr1
      have hip_eq : ip = "1.2.3.4".data :=
        (Prod.mk.injEq _ _ _ _ ▸ Option.some.inj hbr1).1
      rw [hip_eq] at hip
      exact absurd hip (by decide)

/-- C4 (amended): `validatePortMapping` accepts a spec exactly when it has one
of the forms `PORT`, `HOST:CONTAINER`, `IP:HOST:CONTAINER` with a dotted IPv4
address, or `[IP]:HOST:CONTAINER` whose bracketed address may be IPv4 as well
as IPv6 (anything `net.ParseIP` accepts), with every numeric port component
parsing as an integer in `[1, 65535]`; in particular all ten literal cases of
the spec's validation table hold. -/
theorem port_validation_charact :
    (∀ s : Str, validatePortMapping s = true ↔ PortSpecForm s) ∧
    validatePortMapping ("8080".data) = true ∧
    validatePortMapping ("8080:80".data) = true ∧
    validatePortMapping ("127.0.0.1:8080:80".data) = true ∧
    validatePortMapping ("[::1]:8080:80".data) = true ∧
    validatePortMapping ("".data) = false ∧
    validatePortMapping ("abc".data) = false ∧
    validatePortMapping ("0".data) = false ∧
    validatePortMapping ("65536".data) = false ∧
    validatePortMapping ("1:2:3:4".data) = false ∧
    validatePortMapping ("::1:8080:80".data) = false := by
  refine ⟨fun s => ⟨form_of_accept, ?_⟩, by decide, by decide, by decide,
    by decide, by decide, by decide, by decide, by decide, by decide, by decide⟩
  intro hform
  rcases hform with h1 | ⟨h, c, hs, hh, hc⟩ | ⟨ip, h, c, hs, hip, hh, hc⟩ |
    ⟨ip, h, c, hs, hip, hh, hc⟩
  · exact accept_single h1
  · rw [hs]
    exact accept_pair hh hc
  · rw [hs]
    exact accept_triple hip hh hc
  · rw [hs]
    exact accept_bracket hip hh hc

/-! ### Mount composition (internal/container/runtime.go, `CreateContainer`
lines 295-327).  A `-v` argument is modelled as a `Mount`; the anonymous
node_modules volume has no host source.  `os.Stat` is modelled by `envExists`
and `os.CreateTemp` by `tempName`, an enumeration of the fresh empty files it
creates (successful creation assumed; on failure Go silently skips the
mask). -/

structure Mount where
  source : Option Str
  target : Str
  readOnly : Bool
deriving DecidableEq

/-- Model of `filepath.Join(dir, f)` for a clean `dir` and a relative file
name `f` as used for env-file paths. -/
def goJoin (dir f : Str) : Str := if f.isEmpty then dir else dir ++ '/' :: f

/-- The env-file masking loop: each configured env file that exists under the
workspace is overlaid by a fresh empty temp file, mounted read-only at the
env file's own path. -/
def envMounts (dir : Str) (tempName : Nat → Str) (envExists : Str → Bool) :
    List Str → Nat → List Mount
  | [], _ => []
  | f :: rest, i =>
    if envExists (goJoin dir f) then
      ⟨some (tempName i), goJoin dir f, true⟩ ::
        envMounts dir tempName envExists rest (i + 1)
    else envMounts dir tempName envExists rest i

/-- The mount list `CreateContainer` composes: the read-write workspace bind,
the optional anonymous node_modules volume, the env-file masks, and the
optional read-only additional directory. -/
def composeMounts (currentDir additionalDir : Str) (hasPackageJSON : Bool)
    (envFiles : List Str) (envExists : Str → Bool) (tempName : Nat → Str) :
    List Mount :=
  ⟨some currentDir, currentDir, false⟩ ::
    ((if hasPackageJSON then
        [⟨none, currentDir ++ "/node_modules".data, false⟩] else []) ++
      envMounts currentDir tempName envExists envFiles 0 ++
      (if additionalDir.isEmpty then []
       else [⟨some additionalDir, additionalDir, true⟩]))

/-- C2 counterexample: when the additional read-only directory passed to
`CreateContainer` is the env file's own path, that path does appear as a
mount source, so the claim's unconditional "never appears" fails. -/
theorem env_mask_source_cex :
    ".env".data ∈ [".env".data] ∧
      goJoin ("/ws".data) (".env".data) = "/ws/.env".data ∧
      ∃ m ∈ composeMounts ("/ws".data) ("/ws/.env".data) false [".env".data]
          (fun _ => true) (fun _ => "/tmp/env-overlay-0".data),
        m.source = some ("/ws/.env".data) := by
  decide

theorem goJoin_ne_dir {dir f : Str} (h : ¬ f.isEmpty = true) : goJoin dir f ≠ dir := by
  intro heq
  rw [goJoin, if_neg h] at heq
  have := congrArg List.length heq
  simp at this

theorem envMounts_mem {dir : Str} (tempName : Nat → Str) {envExists : Str → Bool}
    {f : Str} (files : List Str) (i : Nat) (hf : f ∈ files)
    (hex : envExists (goJoin dir f) = true) :
    ∃ j, (⟨some (tempName j), goJoin dir f, true⟩ : Mount) ∈
      envMounts dir tempName envExists files i := by
  induction files generalizing i with
  | nil => cases hf
  | cons g rest ih =>
    rcases List.mem_cons.mp hf with rfl | hrest
    · refine ⟨i, ?_⟩
      rw [envMounts, if_pos hex]
      exact List.mem_cons_self _ _
    · rw [envMounts]
      by_cases hg : envExists (goJoin dir g) = true
      · obtain ⟨j, hj⟩ := ih (i + 1) hrest
        exact ⟨j, by rw [if_pos hg]; exact List.mem_cons_of_mem _ hj⟩
      · obtain ⟨j, hj⟩ := ih i hrest
        exact ⟨j, by rw [if_neg hg]; exact hj⟩

theorem envMounts_source {dir : Str} {tempName : Nat → Str} {envExists : Str → Bool}
    {m : Mount} (files : List Str) (i : Nat)
    (hm : m ∈ envMounts dir tempName envExists files i) :
    ∃ j, m.source = some (tempName j) := by
  induction files generalizing i with
  | nil => cases hm
  | cons g rest ih =>
    rw [envMounts] at hm
    by_cases hg : envExists (goJoin dir g) = true
    · rw [if_pos hg] at hm
      rcases List.mem_cons.mp hm with rfl | hrest
      · exact ⟨i, rfl⟩
      · exact ih (i + 1) hrest
    · rw [if_neg hg] at hm
      exact ih i hm

/-- C2 (amended): for every nonempty env file name listed in settings whose
path exists under the workspace, the composed mount list contains a read-only
mount at that env file's container path whose source is one of the fresh
empty temp files and not the env file's path; and — provided the temp names
are fresh and the additional read-only directory is not itself the env file's
path — the env file's path appears as no mount's source. -/
theorem env_mask_spec (currentDir additionalDir : Str) (hasPackageJSON : Bool)
    (envFiles : List Str) (envExists : Str → Bool) (tempName : Nat → Str)
    (f : Str) (hf : f ∈ envFiles) (hex : envExists (goJoin currentDir f) = true)
    (hfne : ¬ f.isEmpty = true)
    (hfresh : ∀ i, tempName i ≠ goJoin currentDir f)
    (hadd : additionalDir ≠ goJoin currentDir f) :
    (∃ m ∈ composeMounts currentDir additionalDir hasPackageJSON envFiles
        envExists tempName,
      m.readOnly = true ∧ m.target = goJoin currentDir f ∧
        (∃ i, m.source = some (tempName i)) ∧
        m.source ≠ some (goJoin currentDir f)) ∧
    ∀ m ∈ composeMounts currentDir additionalDir hasPackageJSON envFiles
        envExists tempName,
      m.source ≠ some (goJoin currentDir f) := by
  constructor
  · obtain ⟨j, hj⟩ := envMounts_mem tempName envFiles 0 hf hex
    refine ⟨⟨some (tempName j), goJoin currentDir f, true⟩, ?_, rfl, rfl, ⟨j, rfl⟩, ?_⟩
    · rw [composeMounts]
      exact List.mem_cons_of_mem _ (List.mem_append.mpr
        (Or.inl (List.mem_append.mpr (Or.inr hj))))
    · simp only [ne_eq, Option.some.injEq]
      exact hfresh j
  · intro m hm
    rw [composeMounts] at hm
    rcases List.mem_cons.mp hm with rfl | hm2
    · simp only [ne_eq, Option.some.injEq]
      exact fun h => goJoin_ne_dir hfne h.symm
    · rcases List.mem_append.mp hm2 with hm3 | hm4
      · rcases List.mem_append.mp hm3 with hm5 | hm6
        · by_cases hp : hasPackageJSON
          · rw [if_pos hp] at hm5
            rcases List.mem_singleton.mp hm5 with rfl
            simp
          · rw [if_neg hp] at hm5
            cases hm5
        · obtain ⟨j, hj⟩ := envMounts_source envFiles 0 hm6
          rw [hj]
          simp only [ne_eq, Option.some.injEq]
          exact hfresh j
      · by_cases ha : additionalDir.isEmpty = true
        · rw [if_pos ha] at hm4
          cases hm4
        · rw [if_neg ha] at hm4
          rcases List.mem_singleton.mp hm4 with rfl
          simp only [ne_eq, Option.some.injEq]
          exact hadd

/-- C2 witness: a concrete workspace with `.env` present. -/
theorem env_mask_spec_witness :
    (∃ m ∈ composeMounts ("/ws".data) ("/extra".data) true [".env".data]
        (fun _ => true) (fun _ => "/tmp/env-overlay-0".data),
      m.readOnly = true ∧ m.target = goJoin ("/ws".data) (".env".data) ∧
        (∃ _i : Nat, m.source = some ("/tmp/env-overlay-0".data)) ∧
        m.source ≠ some (goJoin ("/ws".data) (".env".data))) ∧
    ∀ m ∈ composeMounts ("/ws".data) ("/extra".data) true [".env".data]
        (fun _ => true) (fun _ => "/tmp/env-overlay-0".data),
      m.source ≠ some (goJoin ("/ws".data) (".env".data)) :=
  env_mask_spec ("/ws".data) ("/extra".data) true [".env".data]
    (fun _ => true) (fun _ => "/tmp/env-overlay-0".data) (".env".data)
    (by decide) rfl (by decide)
    (fun _ : Nat =>
      (by decide : ("/tmp/env-overlay-0".data : Str) ≠ goJoin ("/ws".data) (".env".data)))
    (by decide)

end AgentSandbox
